import Mathlib

/-!
Verification of the client-side search engine of the `theravadan` repository
(static/canon/js).  The JavaScript sources are shallowly embedded: strings are
`List Char` (all corpus text is made of Unicode scalar values, so a
character-list model is faithful), the IndexedDB collaborator is modelled as
explicit lists of records handed to the search functions, and the Fuse.js
engine (an external library) is modelled as an arbitrary candidate list.
JavaScript floating point scores are modelled as exact rationals.
-/

namespace Theravadan

/-! ## Characters

`isCombiningMark` embeds the regex class `[̀-ͯ]` (U+0300–U+036F) from
`normalizeText`.  `toLowerChar` embeds `String.prototype.toLowerCase`
restricted to the ASCII letters (the only characters that reach it after
canonical decomposition and mark stripping in this corpus model); all other
characters are left unchanged. -/

def isCombiningMark (c : Char) : Bool :=
  0x300 ≤ c.toNat && c.toNat ≤ 0x36F

def toLowerChar (c : Char) : Char :=
  if 65 ≤ c.toNat ∧ c.toNat ≤ 90 then Char.ofNat (c.toNat + 32) else c

/-- Unicode canonical decomposition (`String.prototype.normalize('NFD')`),
given by its table entries for the precomposed Latin letters that occur in
this corpus (Pali romanisation diacritics and the acute accents exercised by
the tests); characters without a canonical decomposition map to themselves. -/
def nfdChar (c : Char) : List Char :=
  if c = 'É' then ['E', '́']
  else if c = 'é' then ['e', '́']
  else if c = 'Ā' then ['A', '̄']
  else if c = 'ā' then ['a', '̄']
  else if c = 'ī' then ['i', '̄']
  else if c = 'ū' then ['u', '̄']
  else if c = 'ñ' then ['n', '̃']
  else if c = 'ṅ' then ['n', '̇']
  else if c = 'ṭ' then ['t', '̣']
  else if c = 'ḍ' then ['d', '̣']
  else if c = 'ṇ' then ['n', '̣']
  else if c = 'ḷ' then ['l', '̣']
  else if c = 'ṃ' then ['m', '̣']
  else [c]

/-! ## The text normalizer

`normalizeText` (identical in dexie-search.js, search_indexeddb.js,
part_000 and part_006):

    if (!text) return '';
    text = text.normalize('NFD').replace(/[̀-ͯ]/g, '');
    return text.toLowerCase();
-/

def nfdDecompose (l : List Char) : List Char :=
  l.flatMap nfdChar

def stripCombiningMarks (l : List Char) : List Char :=
  l.filter (fun c => !isCombiningMark c)

def lowerChars (l : List Char) : List Char :=
  l.map toLowerChar

def normChars (l : List Char) : List Char :=
  lowerChars (stripCombiningMarks (nfdDecompose l))

/-- `normalizeText` on an (always defined) string argument.  The JavaScript
guard `if (!text) return ''` is the `text = ""` case. -/
def normalizeText (s : String) : String :=
  if s = "" then "" else ⟨normChars s.data⟩

/-- `normalizeText` as called from JavaScript, where the argument may be
`undefined` (modelled as `none`); `!text` is then true and `''` is returned. -/
def normalizeTextJs : Option String → String
  | none => ""
  | some s => normalizeText s

/-- The per-character action of the whole normalization pipeline. -/
def normCharAct (c : Char) : List Char :=
  lowerChars (stripCombiningMarks (nfdChar c))

/-! ## Splitting, trimming, and substring search

`splitOnPred p` is `String.prototype.split` with a single-character
separator class: it cuts at every separator character and keeps empty
pieces, exactly like `"a__b".split('_') == ["a","","b"]`.  The JavaScript
sources use `split(' ')` (part_000, dexie-search.js, the fuzzy post-filter)
and `split(/\s+/)` (part_002); after the `filter(word => word.length > 0)`
that always follows the latter, cutting at every whitespace character is
equivalent to cutting at whitespace runs. -/

def splitOnPred (p : Char → Bool) : List Char → List (List Char)
  | [] => [[]]
  | c :: cs =>
    let r := splitOnPred p cs
    if p c then [] :: r
    else
      match r with
      | [] => [[c]]
      | h :: t => (c :: h) :: t

/-- The ASCII fragment of the JavaScript regex class `\s` (the Unicode space
characters are not used by the corpus and are omitted from the model). -/
def isJsWhite (c : Char) : Bool :=
  c = ' ' || c = '\t' || c = '\n' || c = '\r' || c = '\x0b' || c = '\x0c'

/-- `searchTerm.split(' ').filter(word => word.length > 0)`
(part_000 and dexie-search.js). -/
def spaceWords (l : List Char) : List (List Char) :=
  (splitOnPred (fun c => c = ' ') l).filter (fun w => w ≠ [])

/-- `searchTerm.split(/\s+/).filter(word => word.length > 0)` (part_002). -/
def wsWords (l : List Char) : List (List Char) :=
  (splitOnPred isJsWhite l).filter (fun w => w ≠ [])

/-- `String.prototype.trim` over the modelled whitespace class. -/
def jsTrim (l : List Char) : List Char :=
  ((l.dropWhile isJsWhite).reverse.dropWhile isJsWhite).reverse

/-- Does `s` start with `pat`? -/
def startsWith : List Char → List Char → Bool
  | [], _ => true
  | _ :: _, [] => false
  | p :: ps, c :: cs => p == c && startsWith ps cs

/-- `String.prototype.indexOf`: the first index at which `pat` occurs in
`s`, as an option (`none` for the JavaScript result `-1`). -/
def indexOfSub (s pat : List Char) : Option Nat :=
  if startsWith pat s then some 0
  else
    match s with
    | [] => none
    | _ :: t => (indexOfSub t pat).map (fun i => i + 1)

/-- `String.prototype.includes`. -/
def containsSub (s pat : List Char) : Bool :=
  (indexOfSub s pat).isSome

/-! ## The positional scorer

From dexie-search.js (lines 173–204) and part_000 (lines 138–169), which are
textually identical:

    let score = 0;
    if (normalizedVerse.includes(normalizedSearchTerm)) score -= 0.5;
    let totalPosition = 0; let matchCount = 0;
    searchWords.forEach(word => {
        const position = normalizedVerse.indexOf(word);
        if (position !== -1) { totalPosition += position; matchCount++; }
    });
    if (matchCount > 0)
        score += (totalPosition / matchCount) / normalizedVerse.length;
-/

def matchedPositions (words : List (List Char)) (nv : List Char) : List Nat :=
  words.filterMap (fun w => indexOfSub nv w)

/-- `totalPosition`: the sum of the first-occurrence indices of the matched
words. -/
def totalPositionOf (words : List (List Char)) (nv : List Char) : ℚ :=
  ((matchedPositions words nv).map (fun p : Nat => (p : ℚ))).sum

/-- The position term: `(totalPosition / matchCount) / normalizedVerse.length`
when at least one word matched, `0` otherwise. -/
def posTermOf (words : List (List Char)) (nv : List Char) : ℚ :=
  if (matchedPositions words nv).length = 0 then 0
  else (totalPositionOf words nv / ((matchedPositions words nv).length : ℚ)) /
    (nv.length : ℚ)

/-- The score computed by the positional scorer. -/
def scoreVerse (normTerm : List Char) (words : List (List Char)) (nv : List Char) : ℚ :=
  (if containsSub nv normTerm then -(1 / 2) else 0) + posTermOf words nv

/-- The scoring formula as the SPEC's sentence describes it (0.5 subtracted
when the phrase is contained, the position term added only *otherwise*); kept
side by side with the implemented `scoreVerse` to compare the two. -/
def specScoreVerse (normTerm : List Char) (words : List (List Char))
    (nv : List Char) : ℚ :=
  if containsSub nv normTerm then -(1 / 2) else posTermOf words nv

/-! ## Records and the literal root-language search of part_002

`literalSearchInIndexedDB(searchTerm, storeName)` reads every record of one
store; each record is `{sutta_ref, thread_list: [...], title}` and each
thread item carries `verseindex` and `verse` directly.  A thread item whose
`verse` is missing, empty or not a string is skipped; a missing `verse` or an
empty-string `verse` is modelled as `none` (the `typeof` check cannot be
violated in the model, and `!threadItem.verse` is falsy exactly on the empty
string). A null thread item, also skipped by the source, is modelled as
absent from `thread_list`. -/

structure ThreadItemP2 where
  verseindex : String
  verse : Option String
  author : Option String
deriving DecidableEq

structure RecordP2 where
  sutta_ref : String
  thread_list : List ThreadItemP2
  title : Option String
deriving DecidableEq

structure VerseEntryP2 where
  url_key : String
  verseindex : String
  verse : String
  normalizedVerse : String
  author : String
  title : Option String
deriving DecidableEq

def collectVersesP2 (records : List RecordP2) : List VerseEntryP2 :=
  records.flatMap (fun r =>
    r.thread_list.filterMap (fun t =>
      match t.verse with
      | some v =>
        if v = "" then none
        else some ⟨r.sutta_ref, t.verseindex, v, normalizeText v,
          t.author.getD "unknown", r.title⟩
      | none => none))

/-- The matching stage of `literalSearchInIndexedDB`: a single-word search is
a plain `includes` filter, a multi-word search keeps the verses containing
every word (`searchWords.every(word => verseText.includes(word))`). -/
def literalFilterP2 (searchWords : List (List Char)) (entries : List VerseEntryP2) :
    List VerseEntryP2 :=
  match searchWords with
  | [w] => entries.filter (fun e => containsSub e.normalizedVerse.data w)
  | _ => entries.filter (fun e =>
      searchWords.all (fun w => containsSub e.normalizedVerse.data w))

/-- `results.sort((a, b) => a.normalizedVerse.length - b.normalizedVerse.length)`
(JavaScript `Array.prototype.sort` is stable; so is `List.insertionSort` with
a `≤`-by-key relation). -/
def literalSortedP2 (searchTerm : String) (records : List RecordP2) :
    List VerseEntryP2 :=
  List.insertionSort
    (fun a b => a.normalizedVerse.length ≤ b.normalizedVerse.length)
    (literalFilterP2 (wsWords (normalizeText searchTerm).data)
      (collectVersesP2 records))

structure FormattedResultP2 where
  url_key : String
  verseindex : String
  verse : String
  author : String
  title : Option String
  score : ℚ
deriving DecidableEq

/-- The final shaping step: the ORIGINAL (non-normalized) verse is kept for
display and a placeholder score `0` is attached. -/
def formatP2 (e : VerseEntryP2) : FormattedResultP2 :=
  ⟨e.url_key, e.verseindex, e.verse, e.author, e.title, 0⟩

def literalSearchInIndexedDB (searchTerm : String) (records : List RecordP2) :
    List FormattedResultP2 :=
  (literalSortedP2 searchTerm records).map formatP2

/-! ## The root-language search of part_000

`rootLanguageSearch(searchTerm, rootLang)` scans the stores named
`<rootLang>_<category>` of the Dexie database; each record is
`{root: {verseIndex: {verse}}}` and the cursor key is the URL key. -/

structure RootDoc where
  key : String
  root : List (String × Option String)
deriving DecidableEq

structure RootStore where
  name : String
  docs : List RootDoc
deriving DecidableEq

/-- An `allVerses` item of part_000; `score` is `none` until the scoring
branch attaches one (the unscored shape is what an empty-word search
returns). -/
structure RootEntry where
  url_key : String
  verseindex : String
  verse : String
  normalized_verse : String
  store : String
  score : Option ℚ
deriving DecidableEq

def collectRootVerses (stores : List RootStore) : List RootEntry :=
  stores.flatMap (fun s =>
    s.docs.flatMap (fun doc =>
      doc.root.filterMap (fun pr =>
        match pr.2 with
        | some v =>
          if v = "" then none
          else some ⟨doc.key, pr.1, v, normalizeText v, s.name, none⟩
        | none => none)))

/-- `name.split('_').length === 2 && parts[0] === rootLang`. -/
def relevantRootStores (rootLang : String) (stores : List RootStore) :
    List RootStore :=
  stores.filter (fun s =>
    match splitOnPred (fun c => c = '_') s.name.data with
    | [a, _] => a == rootLang.data
    | _ => false)

def scoreOfRootEntry (e : RootEntry) : ℚ :=
  e.score.getD 0

def rootLanguageSearch (searchTerm rootLang : String) (stores : List RootStore) :
    List RootEntry :=
  let normalizedSearchTerm := normalizeText searchTerm
  let searchWords := spaceWords normalizedSearchTerm.data
  let storeList := relevantRootStores rootLang stores
  if storeList = [] then []
  else
    let allVerses := collectRootVerses storeList
    if searchWords = [] then allVerses
    else
      List.insertionSort (fun a b => scoreOfRootEntry a ≤ scoreOfRootEntry b)
        ((allVerses.filter (fun e =>
            searchWords.all (fun w => containsSub e.normalized_verse.data w))).map
          (fun e => { e with
            score := some (scoreVerse normalizedSearchTerm.data searchWords
              e.normalized_verse.data) }))

/-! ## The translation-language search of dexie-search.js

`languageAwareSearch(searchTerm, langCode)` (dexie-search.js) scans the
stores named `X_<langCode>_Z`; each record is `{texts: {author: {verseIndex:
{verse}}}}`.  NOTE: this variant has no empty-term guard. -/

structure TransRecord where
  texts : List (String × List (String × Option String))
deriving DecidableEq

structure DexieStore where
  name : String
  docs : List (String × TransRecord)
deriving DecidableEq

structure DexieEntry where
  url_key : String
  verseindex : String
  verse : String
  normalized_verse : String
  author : String
  store : String
  score : Option ℚ
deriving DecidableEq

def collectDexieVerses (stores : List DexieStore) : List DexieEntry :=
  stores.flatMap (fun s =>
    s.docs.flatMap (fun pr =>
      pr.2.texts.flatMap (fun au =>
        au.2.filterMap (fun vv =>
          match vv.2 with
          | some v =>
            if v = "" then none
            else some ⟨pr.1, vv.1, v, normalizeText v, au.1, s.name, none⟩
          | none => none))))

/-- `parts.length === 3 && parts[1] === langCode`. -/
def relevantDexieStores (langCode : String) (stores : List DexieStore) :
    List DexieStore :=
  stores.filter (fun s =>
    match splitOnPred (fun c => c = '_') s.name.data with
    | [_, b, _] => b == langCode.data
    | _ => false)

def scoreOfDexieEntry (e : DexieEntry) : ℚ :=
  e.score.getD 0

/-- The dexie-search.js `languageAwareSearch`, returning the result list
together with the names of the storage partitions it read. -/
def dexieLanguageAwareSearch (searchTerm langCode : String)
    (stores : List DexieStore) : List DexieEntry × List String :=
  let normalizedSearchTerm := normalizeText searchTerm
  let searchWords := spaceWords normalizedSearchTerm.data
  let storeList := relevantDexieStores langCode stores
  if storeList = [] then ([], [])
  else
    let allVerses := collectDexieVerses storeList
    let results :=
      if searchWords = [] then allVerses
      else
        List.insertionSort (fun a b => scoreOfDexieEntry a ≤ scoreOfDexieEntry b)
          ((allVerses.filter (fun e =>
              searchWords.all (fun w => containsSub e.normalized_verse.data w))).map
            (fun e => { e with
              score := some (scoreVerse normalizedSearchTerm.data searchWords
                e.normalized_verse.data) }))
    (results, storeList.map (fun s => s.name))

/-! ## The part_002 dispatcher

    async function languageAwareSearch(searchTerm, langCode) {
        const rootLanguages = ['pli', 'san', 'pra', 'lzh'];
        if (!searchTerm || searchTerm.trim() === '') return [];
        if (rootLanguages.includes(langCode))
            return await literalSearchInIndexedDB(searchTerm, langCode);
        else
            return await enhancedSearchInIndexedDB(searchTerm, langCode);
    }

The fuzzy branch (`enhancedSearchInIndexedDB`, not part of the provided
sources) is a parameter; the second component of the result is the list of
storage partitions read (`[]` on the guard path, which returns before any
database access; the string guard `!searchTerm || searchTerm.trim() === ''`
is equivalent to `searchTerm.trim() === ''`). -/

def rootLanguagesList : List String :=
  ["pli", "san", "pra", "lzh"]

def languageAwareSearchP2
    (fuzzy : String → String → List FormattedResultP2 × List String)
    (storage : String → List RecordP2) (searchTerm langCode : String) :
    List FormattedResultP2 × List String :=
  if jsTrim searchTerm.data = [] then ([], [])
  else if rootLanguagesList.contains langCode then
    (literalSearchInIndexedDB searchTerm (storage langCode), [langCode])
  else fuzzy searchTerm langCode

/-! ## The Fuse.js-backed translation search (search_indexeddb.js, part_006)

The verse collection normalizes each verse IN PLACE (`verse:
normalizeText(verseObj.verse)` — the raw text is not kept), hands the
collection to Fuse.js, and post-filters multi-word queries.  Fuse.js is an
external engine, modelled as an arbitrary list of scored candidates. -/

structure FuseItem where
  url_key : String
  verseindex : String
  verse : String
  author : String
  store : String
deriving DecidableEq

structure FuseResult where
  item : FuseItem
  score : ℚ
deriving DecidableEq

structure FuseOut where
  url_key : String
  verseindex : String
  verse : String
  author : String
  store : String
  score : ℚ
deriving DecidableEq

/-- The verse collection of search_indexeddb.js (lines 63–90): note
`verse: normalizeText(verseObj.verse)` — the stored raw text is replaced by
its normalized form before the record is handed onwards. -/
def collectFuseVerses (storeName : String) (docs : List (String × TransRecord)) :
    List FuseItem :=
  docs.flatMap (fun pr =>
    pr.2.texts.flatMap (fun au =>
      au.2.filterMap (fun vv =>
        match vv.2 with
        | some v =>
          if v = "" then none
          else some ⟨pr.1, vv.1, normalizeText v, au.1, storeName⟩
        | none => none)))

/-- The multi-word literal post-filter applied to the Fuse.js output, gated
on `searchTerm.includes(' ')`: `searchTerm.split(' ').map(w =>
w.toLowerCase())` must all occur in `result.item.verse.toLowerCase()`. -/
def fuseFiltered (searchTerm : String) (searchResults : List FuseResult) :
    List FuseResult :=
  if searchTerm.data.contains ' ' then
    searchResults.filter (fun r =>
      (((splitOnPred (fun c => c = ' ') searchTerm.data)).map lowerChars).all
        (fun w => containsSub (lowerChars r.item.verse.data) w))
  else searchResults

/-- Lines 111–142 of search_indexeddb.js (and 103–137 of part_006): the
post-processing applied to the Fuse.js output — the multi-word literal
post-filter followed by the extraction of each item with its score. -/
def fusePostProcess (searchTerm : String) (searchResults : List FuseResult) :
    List FuseOut :=
  (fuseFiltered searchTerm searchResults).map (fun r =>
    ⟨r.item.url_key, r.item.verseindex, r.item.verse, r.item.author,
      r.item.store, r.score⟩)

/-! ## The snippet highlighter (render_search.js)

The regexes built from the search term are literal (the term is
regex-escaped), global and case-insensitive; they are embedded as leftmost
non-overlapping case-insensitive literal matching, with case folding given by
`toLowerChar`.  `highlightSearchTerm`'s per-word branch walks DOM text nodes;
on plain verse text (a single text node, which is what `renderResults` passes
in) it reduces to sequential global replaces on the accumulated string, which
is how it is modelled here. -/

def ciEqChar (a b : Char) : Bool :=
  toLowerChar a == toLowerChar b

def ciStarts : List Char → List Char → Bool
  | [], _ => true
  | _ :: _, [] => false
  | p :: ps, c :: cs => ciEqChar p c && ciStarts ps cs

/-- Case-insensitive occurrence test (`text.match(phraseRegex)` for a
non-empty literal pattern). -/
def ciContainsSub : List Char → List Char → Bool
  | s, pat =>
    if ciStarts pat s then true
    else
      match s with
      | [] => false
      | _ :: t => ciContainsSub t pat

def markOpen : List Char := "<mark>".data

def markClose : List Char := "</mark>".data

/-- `text.replace(regex, '<mark>$&</mark>')` for the global case-insensitive
literal regex built from `term`: every leftmost non-overlapping occurrence is
wrapped, keeping the original-case matched text (`$&`).  The fuel (initially
the text length) only bounds the recursion; every step consumes at least one
character. -/
def markWrapAux (term : List Char) : Nat → List Char → List Char
  | 0, t => t
  | _ + 1, [] => []
  | fuel + 1, c :: rest =>
    if term ≠ [] ∧ ciStarts term (c :: rest) then
      markOpen ++ (c :: rest).take term.length ++ markClose ++
        markWrapAux term fuel ((c :: rest).drop term.length)
    else c :: markWrapAux term fuel rest

def ciReplaceMark (term text : List Char) : List Char :=
  markWrapAux term text.length text

/-- `highlightSearchTerm(text, term)` on plain text. -/
def highlightSearchTerm (text term : List Char) : List Char :=
  if term = [] ∨ text = [] then text
  else if ciContainsSub text term then ciReplaceMark term text
  else
    (wsWords (jsTrim term)).foldl
      (fun content w => if w.length < 2 then content else ciReplaceMark w content)
      text

structure MatchSpan where
  index : Nat
  length : Nat
deriving DecidableEq

/-- All match start indices of the global case-insensitive literal regex
(leftmost, non-overlapping: `lastIndex` advances past each match). -/
def ciFindAllAux (pat : List Char) : Nat → Nat → List Char → List Nat
  | 0, _, _ => []
  | _ + 1, _, [] => []
  | fuel + 1, i, c :: rest =>
    if pat ≠ [] ∧ ciStarts pat (c :: rest) then
      i :: ciFindAllAux pat fuel (i + pat.length) ((c :: rest).drop pat.length)
    else ciFindAllAux pat fuel (i + 1) rest

def ciFindAll (pat text : List Char) : List Nat :=
  ciFindAllAux pat text.length 0 text

/-- The span-merging loop of `createSnippetsWithContext`: spans within
`contextLength` of the current span are folded into it. -/
def mergeSpansGo (cl : Nat) (cur : MatchSpan) : List MatchSpan → List MatchSpan
  | [] => [cur]
  | n :: ns =>
    if n.index ≤ cur.index + cur.length + cl then
      mergeSpansGo cl ⟨cur.index, max cur.length (n.index + n.length - cur.index)⟩ ns
    else cur :: mergeSpansGo cl n ns

def mergeSpans (cl : Nat) : List MatchSpan → List MatchSpan
  | [] => []
  | m :: ms => mergeSpansGo cl m ms

/-- Highlighting of one extracted snippet (whole phrase if present, else each
word of length ≥ 2). -/
def snippetHighlight (term snippet : List Char) : List Char :=
  if ciContainsSub snippet term then ciReplaceMark term snippet
  else
    ((wsWords (jsTrim term)).filter (fun w => 2 ≤ w.length)).foldl
      (fun acc w => ciReplaceMark w acc) snippet

/-- The window-emitting loop of `createSnippetsWithContext`; the state is
`(result, lastEnd, isFirst)`.  `Math.max(0, index - contextLength)` is `Nat`
subtraction; `result.substring(0, result.length - 3)` is `take (length - 3)`. -/
def buildSnippets (text term : List Char) (cl : Nat) (spans : List MatchSpan) :
    List Char :=
  (spans.foldl
    (fun (st : List Char × Nat × Bool) m =>
      let start := m.index - cl
      let stop := min text.length (m.index + m.length + cl)
      let res1 :=
        if start > st.2.1 then st.1 ++ "... ".data
        else if !st.2.2 then st.1.take (st.1.length - 3) else st.1
      let snippet := (text.take stop).drop start
      let res2 := res1 ++ snippetHighlight term snippet
      let res3 := if stop < text.length then res2 ++ " ...".data else res2
      (res3, stop, false))
    ([], 0, true)).1

def createSnippetsWithContext (text : List Char) (ms : List MatchSpan)
    (term : List Char) (cl : Nat) : List Char :=
  let sorted := List.insertionSort (fun a b => a.index ≤ b.index) ms
  if sorted = [] then text.take (cl * 2) ++ "...".data
  else buildSnippets text term cl (mergeSpans cl sorted)

/-- `highlightWithContext(text, term, contextLength = 50)` on plain text. -/
def highlightWithContext (text term : List Char) (cl : Nat) : List Char :=
  if term = [] ∨ text = [] then text
  else if text.length ≤ cl * 3 then highlightSearchTerm text term
  else if ciContainsSub text term then
    createSnippetsWithContext text
      ((ciFindAll term text).map (fun i => (⟨i, term.length⟩ : MatchSpan))) term cl
  else
    createSnippetsWithContext text
      ((wsWords (jsTrim term)).flatMap (fun w =>
        if w.length < 2 then []
        else (ciFindAll w text).map (fun i => (⟨i, w.length⟩ : MatchSpan))))
      term cl

/-- The number of positions at which `pat` occurs in `s` (used to count
emitted `<mark>` wrappers). -/
def countOcc (pat s : List Char) : Nat :=
  ((List.range s.length).filter (fun i => startsWith pat (s.drop i))).length

theorem normalizeText_eq (s : String) : normalizeText s = ⟨normChars s.data⟩ := by
  by_cases h : s = ""
  · subst h; rfl
  · simp [normalizeText, h]

theorem stripCombiningMarks_singleton (c : Char) :
    stripCombiningMarks [c] = if isCombiningMark c then [] else [c] := by
  unfold stripCombiningMarks
  by_cases h : isCombiningMark c <;> simp [h]

theorem normChars_eq_flatMap (l : List Char) :
    normChars l = l.flatMap normCharAct := by
  induction l with
  | nil => rfl
  | cons c t ih =>
    have h1 : normChars (c :: t) = normCharAct c ++ normChars t := by
      unfold normChars normCharAct nfdDecompose stripCombiningMarks lowerChars
      rw [List.flatMap_cons, List.filter_append, List.map_append]
    rw [h1, ih, List.flatMap_cons]

theorem toNat_ofNat_valid (n : Nat) (h : n.isValidChar) :
    (Char.ofNat n).toNat = n := by
  unfold Char.ofNat
  rw [dif_pos h]
  rfl

theorem nfdChar_of_small (d : Char) (h : d.toNat < 192) : nfdChar d = [d] := by
  have n1 : ¬d = 'É' := fun he => absurd (he ▸ h) (by decide)
  have n2 : ¬d = 'é' := fun he => absurd (he ▸ h) (by decide)
  have n3 : ¬d = 'Ā' := fun he => absurd (he ▸ h) (by decide)
  have n4 : ¬d = 'ā' := fun he => absurd (he ▸ h) (by decide)
  have n5 : ¬d = 'ī' := fun he => absurd (he ▸ h) (by decide)
  have n6 : ¬d = 'ū' := fun he => absurd (he ▸ h) (by decide)
  have n7 : ¬d = 'ñ' := fun he => absurd (he ▸ h) (by decide)
  have n8 : ¬d = 'ṅ' := fun he => absurd (he ▸ h) (by decide)
  have n9 : ¬d = 'ṭ' := fun he => absurd (he ▸ h) (by decide)
  have n10 : ¬d = 'ḍ' := fun he => absurd (he ▸ h) (by decide)
  have n11 : ¬d = 'ṇ' := fun he => absurd (he ▸ h) (by decide)
  have n12 : ¬d = 'ḷ' := fun he => absurd (he ▸ h) (by decide)
  have n13 : ¬d = 'ṃ' := fun he => absurd (he ▸ h) (by decide)
  unfold nfdChar
  rw [if_neg n1, if_neg n2, if_neg n3, if_neg n4, if_neg n5, if_neg n6,
    if_neg n7, if_neg n8, if_neg n9, if_neg n10, if_neg n11, if_neg n12,
    if_neg n13]

theorem nfdChar_default (c : Char) (h1 : ¬c = 'É') (h2 : ¬c = 'é')
    (h3 : ¬c = 'Ā') (h4 : ¬c = 'ā') (h5 : ¬c = 'ī') (h6 : ¬c = 'ū')
    (h7 : ¬c = 'ñ') (h8 : ¬c = 'ṅ') (h9 : ¬c = 'ṭ') (h10 : ¬c = 'ḍ')
    (h11 : ¬c = 'ṇ') (h12 : ¬c = 'ḷ') (h13 : ¬c = 'ṃ') : nfdChar c = [c] := by
  unfold nfdChar
  rw [if_neg h1, if_neg h2, if_neg h3, if_neg h4, if_neg h5, if_neg h6,
    if_neg h7, if_neg h8, if_neg h9, if_neg h10, if_neg h11, if_neg h12,
    if_neg h13]

theorem isCombiningMark_of_small (d : Char) (h : d.toNat < 768) :
    isCombiningMark d = false := by
  unfold isCombiningMark
  simp only [Bool.and_eq_false_iff, decide_eq_false_iff_not, not_le]
  omega

theorem toLowerChar_of_not_upper (d : Char) (h : ¬(65 ≤ d.toNat ∧ d.toNat ≤ 90)) :
    toLowerChar d = d := by
  unfold toLowerChar
  rw [if_neg h]

theorem normCharAct_fixed_of (d : Char) (h1 : nfdChar d = [d])
    (h2 : isCombiningMark d = false) (h3 : toLowerChar d = d) :
    normCharAct d = [d] := by
  unfold normCharAct
  rw [h1, stripCombiningMarks_singleton, h2]
  simp [lowerChars, h3]

/-- Every character produced by the normalization pipeline is a fixed point of
the pipeline: it has no canonical decomposition, is not a combining mark, and
is already lower case. -/
theorem normCharAct_mem_fixed (c d : Char) (hd : d ∈ normCharAct c) :
    normCharAct d = [d] := by
  by_cases h1 : c = 'É'
  · subst h1; rw [show normCharAct 'É' = ['e'] from by decide,
      List.mem_singleton] at hd; subst hd; decide
  by_cases h2 : c = 'é'
  · subst h2; rw [show normCharAct 'é' = ['e'] from by decide,
      List.mem_singleton] at hd; subst hd; decide
  by_cases h3 : c = 'Ā'
  · subst h3; rw [show normCharAct 'Ā' = ['a'] from by decide,
      List.mem_singleton] at hd; subst hd; decide
  by_cases h4 : c = 'ā'
  · subst h4; rw [show normCharAct 'ā' = ['a'] from by decide,
      List.mem_singleton] at hd; subst hd; decide
  by_cases h5 : c = 'ī'
  · subst h5; rw [show normCharAct 'ī' = ['i'] from by decide,
      List.mem_singleton] at hd; subst hd; decide
  by_cases h6 : c = 'ū'
  · subst h6; rw [show normCharAct 'ū' = ['u'] from by decide,
      List.mem_singleton] at hd; subst hd; decide
  by_cases h7 : c = 'ñ'
  · subst h7; rw [show normCharAct 'ñ' = ['n'] from by decide,
      List.mem_singleton] at hd; subst hd; decide
  by_cases h8 : c = 'ṅ'
  · subst h8; rw [show normCharAct 'ṅ' = ['n'] from by decide,
      List.mem_singleton] at hd; subst hd; decide
  by_cases h9 : c = 'ṭ'
  · subst h9; rw [show normCharAct 'ṭ' = ['t'] from by decide,
      List.mem_singleton] at hd; subst hd; decide
  by_cases h10 : c = 'ḍ'
  · subst h10; rw [show normCharAct 'ḍ' = ['d'] from by decide,
      List.mem_singleton] at hd; subst hd; decide
  by_cases h11 : c = 'ṇ'
  · subst h11; rw [show normCharAct 'ṇ' = ['n'] from by decide,
      List.mem_singleton] at hd; subst hd; decide
  by_cases h12 : c = 'ḷ'
  · subst h12; rw [show normCharAct 'ḷ' = ['l'] from by decide,
      List.mem_singleton] at hd; subst hd; decide
  by_cases h13 : c = 'ṃ'
  · subst h13; rw [show normCharAct 'ṃ' = ['m'] from by decide,
      List.mem_singleton] at hd; subst hd; decide
  -- no canonical decomposition: `nfdChar c = [c]`
  rw [show normCharAct c = lowerChars (stripCombiningMarks (nfdChar c)) from rfl,
    nfdChar_default c h1 h2 h3 h4 h5 h6 h7 h8 h9 h10 h11 h12 h13,
    stripCombiningMarks_singleton] at hd
  by_cases hm : isCombiningMark c
  · rw [if_pos hm] at hd; simp [lowerChars] at hd
  · rw [if_neg hm] at hd
    rw [show lowerChars [c] = [toLowerChar c] from rfl, List.mem_singleton] at hd
    subst hd
    by_cases hu : 65 ≤ c.toNat ∧ c.toNat ≤ 90
    · have ht : (toLowerChar c).toNat = c.toNat + 32 := by
        unfold toLowerChar
        rw [if_pos hu]
        exact toNat_ofNat_valid _ (Or.inl (by omega))
      exact normCharAct_fixed_of _ (nfdChar_of_small _ (by omega))
        (isCombiningMark_of_small _ (by omega))
        (toLowerChar_of_not_upper _ (by omega))
    · rw [toLowerChar_of_not_upper c hu]
      exact normCharAct_fixed_of _
        (nfdChar_default c h1 h2 h3 h4 h5 h6 h7 h8 h9 h10 h11 h12 h13)
        (Bool.eq_false_iff.mpr (fun he => hm he)) (toLowerChar_of_not_upper c hu)

theorem normCharAct_flatMap_self (m : List Char)
    (hm : ∀ d ∈ m, normCharAct d = [d]) : m.flatMap normCharAct = m := by
  induction m with
  | nil => rfl
  | cons d t ih =>
    rw [List.flatMap_cons, hm d (List.mem_cons_self d t),
      ih (fun e he => hm e (List.mem_cons_of_mem d he))]
    rfl

/-- The character-level normalization pipeline is idempotent. -/
theorem normChars_idem (l : List Char) : normChars (normChars l) = normChars l := by
  rw [normChars_eq_flatMap l, normChars_eq_flatMap]
  induction l with
  | nil => rfl
  | cons c t ih =>
    rw [List.flatMap_cons, List.flatMap_append, ih,
      normCharAct_flatMap_self _ (fun d hd => normCharAct_mem_fixed c d hd)]

theorem startsWith_length_le (pat s : List Char) (h : startsWith pat s = true) :
    pat.length ≤ s.length := by
  induction pat generalizing s with
  | nil => simp
  | cons p ps ih =>
    cases s with
    | nil => simp [startsWith] at h
    | cons c cs =>
      simp only [startsWith, Bool.and_eq_true] at h
      simpa using ih cs h.2

theorem indexOfSub_bound (s pat : List Char) (i : Nat)
    (h : indexOfSub s pat = some i) : i + pat.length ≤ s.length := by
  induction s generalizing i with
  | nil =>
    unfold indexOfSub at h
    split at h
    · next hs =>
      cases h
      simpa using startsWith_length_le pat [] hs
    · simp at h
  | cons c t ih =>
    unfold indexOfSub at h
    split at h
    · next hs =>
      cases h
      simpa using startsWith_length_le pat (c :: t) hs
    · simp only [Option.map_eq_some'] at h
      obtain ⟨j, hj, rfl⟩ := h
      have := ih j hj
      simp only [List.length_cons]
      omega

theorem indexOfSub_nil_pat (s : List Char) : indexOfSub s [] = some 0 := by
  unfold indexOfSub
  rw [if_pos]
  cases s <;> rfl

theorem totalPositionOf_nonneg (words : List (List Char)) (nv : List Char) :
    0 ≤ totalPositionOf words nv := by
  unfold totalPositionOf
  apply List.sum_nonneg
  intro x hx
  rw [List.mem_map] at hx
  obtain ⟨p, _, rfl⟩ := hx
  positivity

theorem posTermOf_nonneg (words : List (List Char)) (nv : List Char) :
    0 ≤ posTermOf words nv := by
  unfold posTermOf
  split
  · exact le_refl 0
  · exact div_nonneg (div_nonneg (totalPositionOf_nonneg words nv)
      (by positivity)) (by positivity)

theorem matchedPositions_lt (words : List (List Char)) (nv : List Char)
    (hnv : nv ≠ []) (p : Nat) (hp : p ∈ matchedPositions words nv) :
    p + 1 ≤ nv.length := by
  unfold matchedPositions at hp
  simp only [List.mem_filterMap] at hp
  obtain ⟨w, _, hw⟩ := hp
  have hb := indexOfSub_bound nv w p hw
  cases w with
  | nil =>
    rw [indexOfSub_nil_pat] at hw
    cases hw
    cases nv with
    | nil => exact absurd rfl hnv
    | cons _ _ => simp
  | cons _ _ =>
    simp only [List.length_cons] at hb
    omega

theorem posTermOf_lt_one (words : List (List Char)) (nv : List Char)
    (hm : matchedPositions words nv ≠ []) : posTermOf words nv < 1 := by
  unfold posTermOf
  rw [if_neg (by simpa using hm)]
  by_cases hnv : nv = []
  · subst hnv
    -- division by the zero length is `0` in `ℚ`
    simp
  · have hlen : 0 < nv.length := List.length_pos.mpr hnv
    have hcnt : 0 < (matchedPositions words nv).length := List.length_pos.mpr hm
    rw [div_div]
    rw [div_lt_one (by positivity)]
    have hb : ∀ x ∈ (matchedPositions words nv).map (fun p : Nat => (p : ℚ)),
        x ≤ (nv.length : ℚ) - 1 := by
      intro x hx
      rw [List.mem_map] at hx
      obtain ⟨p, hp, rfl⟩ := hx
      have h0 := matchedPositions_lt words nv hnv p hp
      have h1 : (p : ℚ) + 1 ≤ (nv.length : ℚ) := by exact_mod_cast h0
      linarith
    have hsum := List.sum_le_card_nsmul
      ((matchedPositions words nv).map (fun p : Nat => (p : ℚ)))
      ((nv.length : ℚ) - 1) hb
    rw [List.length_map, nsmul_eq_mul] at hsum
    have hstep : ((matchedPositions words nv).length : ℚ) * ((nv.length : ℚ) - 1)
        < ((matchedPositions words nv).length : ℚ) * (nv.length : ℚ) := by
      apply mul_lt_mul_of_pos_left (by linarith) (by exact_mod_cast hcnt)
    calc totalPositionOf words nv
        ≤ ((matchedPositions words nv).length : ℚ) * ((nv.length : ℚ) - 1) := hsum
      _ < ((matchedPositions words nv).length : ℚ) * (nv.length : ℚ) := hstep

/-! ## Generic helper lemmas -/

theorem insertionSort_pair {α : Type} (r : α → α → Prop) [DecidableRel r]
    (a b : α) : List.insertionSort r [a, b] = if r a b then [a, b] else [b, a] := by
  by_cases h : r a b <;>
    simp [List.insertionSort, List.orderedInsert, h]

theorem mem_literalFilterP2 (ws : List (List Char)) (entries : List VerseEntryP2)
    (e : VerseEntryP2) :
    e ∈ literalFilterP2 ws entries ↔
      e ∈ entries ∧ ws.all (fun w => containsSub e.normalizedVerse.data w) = true := by
  cases ws with
  | nil => simp [literalFilterP2, List.mem_filter]
  | cons w t =>
    cases t with
    | nil => simp [literalFilterP2, List.mem_filter]
    | cons w2 t2 => simp [literalFilterP2, List.mem_filter]

/-! ## Claim theorems -/

/-- C8.  Normalizer contract: `normalize` of `undefined` or empty input is
`""`; it is the composition canonical-decomposition → strip U+0300–U+036F →
lower-case; it is idempotent on every string; and
`normalize "Café" = normalize "cafe" = "cafe"`. -/
theorem normalize_contract :
    normalizeTextJs none = "" ∧ normalizeTextJs (some "") = "" ∧
    (∀ s : String,
      normalizeText s = ⟨lowerChars (stripCombiningMarks (nfdDecompose s.data))⟩) ∧
    (∀ s : String, normalizeText (normalizeText s) = normalizeText s) ∧
    normalizeText "Café" = normalizeText "cafe" ∧ normalizeText "cafe" = "cafe" := by
  refine ⟨rfl, rfl, fun s => normalizeText_eq s, fun s => ?_, by decide, by decide⟩
  rw [normalizeText_eq s, normalizeText_eq ⟨normChars s.data⟩]
  exact congrArg String.mk (normChars_idem s.data)

/-- C10.  The fuzzy strategy's literal post-filter is applied only when the
raw search term contains a space character: for every space-free term the
Fuse.js candidates are passed through unfiltered (only reshaped), so a
returned verse need not contain the query word — as the concrete candidate
`"redish fruit"` returned for the single-word query `"apple"` shows. -/
theorem fuse_single_word_unfiltered :
    (∀ (searchTerm : String) (searchResults : List FuseResult),
      searchTerm.data.contains ' ' = false →
      fusePostProcess searchTerm searchResults =
        searchResults.map (fun r =>
          ⟨r.item.url_key, r.item.verseindex, r.item.verse, r.item.author,
            r.item.store, r.score⟩)) ∧
    (fusePostProcess "apple"
        [⟨⟨"mn1", "1.1", "redish fruit", "sujato", "pli_en_sutta"⟩, 0⟩] =
      [⟨"mn1", "1.1", "redish fruit", "sujato", "pli_en_sutta", 0⟩] ∧
      containsSub "redish fruit".data "apple".data = false) := by
  refine ⟨fun searchTerm searchResults h => ?_, by decide, by decide⟩
  unfold fusePostProcess fuseFiltered
  rw [if_neg (fun hc => by rw [h] at hc; exact absurd hc (by decide))]

/-- C10 witness: the unfiltered pass-through at a concrete space-free term
and candidate list. -/
theorem fuse_single_word_unfiltered_witness :
    fusePostProcess "apple"
        [⟨⟨"mn1", "1.1", "redish fruit", "sujato", "pli_en_sutta"⟩, 0⟩] =
      ([⟨⟨"mn1", "1.1", "redish fruit", "sujato", "pli_en_sutta"⟩, 0⟩] :
          List FuseResult).map
        (fun r =>
          (⟨r.item.url_key, r.item.verseindex, r.item.verse, r.item.author,
            r.item.store, r.score⟩ : FuseOut)) :=
  fuse_single_word_unfiltered.1 "apple"
    [⟨⟨"mn1", "1.1", "redish fruit", "sujato", "pli_en_sutta"⟩, 0⟩] (by decide)

/-- C2 counterexample: `"red\tapple"` has two whitespace-split words, but
contains no space character, so the fuzzy post-filter is skipped and a
candidate verse `"redish fruit"` that lacks the query word `"apple"` is
returned — the claim's filter, stated for every query of at least two
(whitespace-split) words, fails at this input. -/
theorem fuse_post_filter_cex :
    (wsWords (normalizeText "red\tapple").data).length = 2 ∧
    "apple".data ∈ wsWords (normalizeText "red\tapple").data ∧
    fusePostProcess "red\tapple"
        [⟨⟨"mn1", "1.1", "redish fruit", "sujato", "pli_en_sutta"⟩, 0⟩] =
      [⟨"mn1", "1.1", "redish fruit", "sujato", "pli_en_sutta", 0⟩] ∧
    containsSub (lowerChars "redish fruit".data) (lowerChars "apple".data) = false := by
  refine ⟨by decide, by decide, ?_, by decide⟩
  unfold fusePostProcess fuseFiltered
  rw [if_neg (by decide)]
  decide

/-- C2 amended: for every query whose RAW term contains a space character,
every result of the fuzzy search contains every space-split, lower-cased
query word as a literal substring of its (lower-cased) verse text; any
candidate missing a word is discarded. -/
theorem fuse_post_filter_amended (searchTerm : String)
    (searchResults : List FuseResult) (r : FuseOut) (w : List Char)
    (hsp : searchTerm.data.contains ' ' = true)
    (hr : r ∈ fusePostProcess searchTerm searchResults)
    (hw : w ∈ (splitOnPred (fun c => c = ' ') searchTerm.data).map lowerChars) :
    containsSub (lowerChars r.verse.data) w = true := by
  unfold fusePostProcess fuseFiltered at hr
  rw [if_pos hsp] at hr
  rw [List.mem_map] at hr
  obtain ⟨r0, hr0, rfl⟩ := hr
  rw [List.mem_filter] at hr0
  have hall := hr0.2
  rw [List.all_eq_true] at hall
  exact hall w hw

/-- C2 witness: the post-filter at the concrete query `"red apple"` and the
passing candidate `"the red apple fell"`, instantiated at the word
`"apple"`. -/
theorem fuse_post_filter_witness :
    containsSub (lowerChars "the red apple fell".data) "apple".data = true :=
  fuse_post_filter_amended "red apple"
    [⟨⟨"mn1", "1.1", "the red apple fell", "sujato", "pli_en_sutta"⟩, 0⟩]
    ⟨"mn1", "1.1", "the red apple fell", "sujato", "pli_en_sutta", 0⟩
    "apple".data (by decide) (by decide) (by decide)

/-- C7.  The Fuse.js-backed translation search stores
`verse: normalizeText(verseObj.verse)` at collection time, so the `verse`
field that reaches `renderResults` (which displays `result.verse`) is the
case/diacritic-folded form, not the raw verse text: for the stored verse
`"Café"` the search result's verse field is `"cafe"`. -/
theorem normalized_verse_displayed_bug :
    (collectFuseVerses "pli_en_sutta"
        [("mn1", ⟨[("sujato", [("1.1", some "Café")])]⟩)]).map
      (fun it => it.verse) = ["cafe"] ∧
    (fusePostProcess "cafe"
        (((collectFuseVerses "pli_en_sutta"
          [("mn1", ⟨[("sujato", [("1.1", some "Café")])]⟩)])).map
          (fun it => ⟨it, 0⟩))).map (fun r => r.verse) = ["cafe"] ∧
    ¬("cafe" = "Café") := by
  refine ⟨by decide, ?_, by decide⟩
  unfold fusePostProcess fuseFiltered
  rw [if_neg (by decide)]
  decide

/-- C3 counterexample: the dexie-search.js `languageAwareSearch` has no
empty-term guard — with an empty search term it reads the matching storage
partition and returns every collected verse, not `[]`. -/
theorem empty_query_guard_cex :
    (dexieLanguageAwareSearch "" "en"
        [⟨"pli_en_sutta", [("mn1", ⟨[("sujato", [("1.1", some "metta sutta")])]⟩)]⟩]).1 =
      [⟨"mn1", "1.1", "metta sutta", "metta sutta", "sujato", "pli_en_sutta", none⟩] ∧
    (dexieLanguageAwareSearch "" "en"
        [⟨"pli_en_sutta", [("mn1", ⟨[("sujato", [("1.1", some "metta sutta")])]⟩)]⟩]).2 =
      ["pli_en_sutta"] := by
  constructor <;>
    (simp only [dexieLanguageAwareSearch]; rw [if_neg (by decide)]; decide)

/-- C3 amended: the part_002 dispatcher `languageAwareSearch` returns an
empty result array for an empty or whitespace-only term, before reading any
storage partition and regardless of the fuzzy strategy and the storage
contents; the dexie-search.js variant of the same function lacks this
guard. -/
theorem empty_query_guard_amended
    (fuzzy : String → String → List FormattedResultP2 × List String)
    (storage : String → List RecordP2) (searchTerm langCode : String)
    (h : jsTrim searchTerm.data = []) :
    languageAwareSearchP2 fuzzy storage searchTerm langCode = ([], []) := by
  unfold languageAwareSearchP2
  rw [if_pos h]

/-- C3 witness: the guard at the whitespace-only term `"   "`, with a
storage partition holding a record and a fuzzy strategy that would return a
result — neither is consulted. -/
theorem empty_query_guard_witness :
    languageAwareSearchP2
      (fun _ _ => ([⟨"x", "x", "x", "x", none, 0⟩], ["pli_en_sutta"]))
      (fun _ => [⟨"mn1", [⟨"1.1", some "metta", none⟩], none⟩])
      "   " "en" = ([], []) :=
  empty_query_guard_amended _ _ "   " "en" (by decide)

/-- C1 counterexample: for the query `"red\tapple"` (two whitespace-split
words separated by a tab) and a stored verse `"Red apple"`, every
whitespace-split word of the normalized query occurs in the normalized verse
text, yet `rootLanguageSearch` (which splits the query on `' '` only, getting
the single word `"red\tapple"`) returns no result — so membership in the
literal search results is not equivalent to whitespace-split word
containment. -/
theorem literal_word_split_cex :
    (wsWords (normalizeText "red\tapple").data).all
      (fun w => containsSub (normalizeText "Red apple").data w) = true ∧
    rootLanguageSearch "red\tapple" "pli"
      [⟨"pli_sutta", [⟨"mn1", [("1.1", some "Red apple")]⟩]⟩] = [] := by
  refine ⟨by decide, ?_⟩
  simp only [rootLanguageSearch]
  rw [if_neg (by decide), if_neg (by decide)]
  rw [show (collectRootVerses (relevantRootStores "pli"
      [⟨"pli_sutta", [⟨"mn1", [("1.1", some "Red apple")]⟩]⟩])).filter
      (fun e => (spaceWords (normalizeText "red\tapple").data).all
        (fun w => containsSub e.normalized_verse.data w)) = [] from by decide]
  rfl

/-- C1 amended: in `literalSearchInIndexedDB` (part_002) a record is in the
result list iff it was collected and every WHITESPACE-split word of the
normalized query is a substring of its normalized verse text; in
`rootLanguageSearch` (part_000) the same holds with the normalized query
split on SPACE characters only (for a non-empty word list).  The two notions
coincide whenever the query's internal whitespace consists of spaces. -/
theorem literal_word_split_amended :
    (∀ (searchTerm : String) (records : List RecordP2) (r : FormattedResultP2),
      r ∈ literalSearchInIndexedDB searchTerm records ↔
        ∃ e ∈ collectVersesP2 records,
          (wsWords (normalizeText searchTerm).data).all
            (fun w => containsSub e.normalizedVerse.data w) = true ∧
          formatP2 e = r) ∧
    (∀ (searchTerm rootLang : String) (stores : List RootStore) (r : RootEntry),
      spaceWords (normalizeText searchTerm).data ≠ [] →
      (r ∈ rootLanguageSearch searchTerm rootLang stores ↔
        ∃ e ∈ collectRootVerses (relevantRootStores rootLang stores),
          (spaceWords (normalizeText searchTerm).data).all
            (fun w => containsSub e.normalized_verse.data w) = true ∧
          { e with score := some (scoreVerse (normalizeText searchTerm).data
              (spaceWords (normalizeText searchTerm).data)
              e.normalized_verse.data) } = r)) := by
  constructor
  · intro searchTerm records r
    unfold literalSearchInIndexedDB literalSortedP2
    rw [List.mem_map]
    constructor
    · rintro ⟨e, he, rfl⟩
      rw [(List.perm_insertionSort _ _).mem_iff, mem_literalFilterP2] at he
      exact ⟨e, he.1, he.2, rfl⟩
    · rintro ⟨e, he, hall, rfl⟩
      exact ⟨e, by rw [(List.perm_insertionSort _ _).mem_iff,
        mem_literalFilterP2]; exact ⟨he, hall⟩, rfl⟩
  · intro searchTerm rootLang stores r hw
    simp only [rootLanguageSearch]
    by_cases hs : relevantRootStores rootLang stores = []
    · rw [if_pos hs, hs]
      simp [collectRootVerses]
    · rw [if_neg hs, if_neg hw]
      rw [(List.perm_insertionSort _ _).mem_iff, List.mem_map]
      constructor
      · rintro ⟨e, he, rfl⟩
        rw [List.mem_filter] at he
        exact ⟨e, he.1, he.2, rfl⟩
      · rintro ⟨e, he, hall, rfl⟩
        exact ⟨e, by rw [List.mem_filter]; exact ⟨he, hall⟩, rfl⟩

/-- C1 witness: the part_000 membership criterion instantiated at the query
`"red apple"` and a one-verse store. -/
theorem literal_word_split_witness :
    ({ url_key := "mn1", verseindex := "1.1", verse := "the red apple",
       normalized_verse := "the red apple", store := "pli_sutta",
       score := some (scoreVerse (normalizeText "red apple").data
         (spaceWords (normalizeText "red apple").data)
         ("the red apple" : String).data) } : RootEntry) ∈
      rootLanguageSearch "red apple" "pli"
        [⟨"pli_sutta", [⟨"mn1", [("1.1", some "the red apple")]⟩]⟩] := by
  rw [literal_word_split_amended.2 "red apple" "pli"
    [⟨"pli_sutta", [⟨"mn1", [("1.1", some "the red apple")]⟩]⟩] _ (by decide)]
  refine ⟨⟨"mn1", "1.1", "the red apple", "the red apple", "pli_sutta", none⟩,
    by decide, by decide, ?_⟩
  rfl

/-- C9.  Short texts (length at most `3 * contextLength`) in which the query
phrase occurs verbatim (case-insensitively) are highlighted by wrapping every
whole-phrase occurrence in a single `<mark>` span; in particular
`highlight("the red apple fell", "red apple")` yields exactly one
highlighted span covering `"red apple"`, not two single-word spans. -/
theorem highlight_whole_phrase :
    (∀ (text term : List Char) (cl : Nat),
      ¬term = [] → ¬text = [] → text.length ≤ cl * 3 →
      ciContainsSub text term = true →
      highlightWithContext text term cl = ciReplaceMark term text) ∧
    highlightWithContext "the red apple fell".data "red apple".data 50 =
      "the <mark>red apple</mark> fell".data ∧
    countOcc "<mark>".data
      (highlightWithContext "the red apple fell".data "red apple".data 50) = 1 := by
  refine ⟨fun text term cl ht hx hlen hci => ?_, by decide, by decide⟩
  unfold highlightWithContext highlightSearchTerm
  rw [if_neg (by rintro (h | h) <;> [exact ht h; exact hx h]), if_pos hlen,
    if_neg (by rintro (h | h) <;> [exact ht h; exact hx h]), if_pos hci]

/-- C9 witness: the whole-phrase path at the concrete text and query of the
spec's test. -/
theorem highlight_whole_phrase_witness :
    highlightWithContext "the red apple fell".data "red apple".data 50 =
      ciReplaceMark "red apple".data "the red apple fell".data :=
  highlight_whole_phrase.1 "the red apple fell".data "red apple".data 50
    (by decide) (by decide) (by decide) (by decide)

/-- C5 counterexample: for the query `"dukkha"` and the verse
`"xy dukkha"` (which contains the full phrase), the implemented scorer
subtracts 0.5 AND adds the position term `(3/1)/9`, giving `-1/6`, whereas
the claim's formula (position term added only when the phrase is absent)
gives `-1/2`. -/
theorem score_formula_cex :
    scoreVerse (normalizeText "dukkha").data
        (spaceWords (normalizeText "dukkha").data)
        (normalizeText "xy dukkha").data = -(1 / 6 : ℚ) ∧
    specScoreVerse (normalizeText "dukkha").data
        (spaceWords (normalizeText "dukkha").data)
        (normalizeText "xy dukkha").data = -(1 / 2 : ℚ) ∧
    ¬(-(1 / 6 : ℚ) = -(1 / 2 : ℚ)) := by
  refine ⟨?_, ?_, by norm_num⟩
  · unfold scoreVerse posTermOf totalPositionOf
    rw [if_pos (by decide : containsSub (normalizeText "xy dukkha").data
      (normalizeText "dukkha").data = true)]
    rw [show matchedPositions (spaceWords (normalizeText "dukkha").data)
      (normalizeText "xy dukkha").data = [3] from by decide]
    rw [show (normalizeText "xy dukkha").data.length = 9 from by decide]
    norm_num
  · unfold specScoreVerse
    rw [if_pos (by decide : containsSub (normalizeText "xy dukkha").data
      (normalizeText "dukkha").data = true)]

/-- C5 amended: the score is always the sum of the phrase bonus (−0.5 when
the normalized text contains the full normalized phrase, else 0) and the
position term — the position term is added in BOTH cases, not only when the
phrase is absent — and when at least one query word matches, the position
term lies in [0, 1). -/
theorem score_decomposition (normTerm : List Char) (words : List (List Char))
    (nv : List Char) (hm : matchedPositions words nv ≠ []) :
    scoreVerse normTerm words nv =
      (if containsSub nv normTerm then -(1 / 2 : ℚ) else 0) + posTermOf words nv ∧
    0 ≤ posTermOf words nv ∧ posTermOf words nv < 1 :=
  ⟨rfl, posTermOf_nonneg words nv, posTermOf_lt_one words nv hm⟩

/-- C5 witness: the decomposition at the query `"dukkha"` and the verse
`"xy dukkha"`. -/
theorem score_decomposition_witness :
    scoreVerse (normalizeText "dukkha").data
        (spaceWords (normalizeText "dukkha").data)
        (normalizeText "xy dukkha").data =
      (if containsSub (normalizeText "xy dukkha").data
          (normalizeText "dukkha").data then -(1 / 2 : ℚ) else 0) +
        posTermOf (spaceWords (normalizeText "dukkha").data)
          (normalizeText "xy dukkha").data ∧
    0 ≤ posTermOf (spaceWords (normalizeText "dukkha").data)
        (normalizeText "xy dukkha").data ∧
    posTermOf (spaceWords (normalizeText "dukkha").data)
        (normalizeText "xy dukkha").data < 1 :=
  score_decomposition _ _ _ (by decide)

/-- C6 counterexample: for the query `"red apple"`, the verse
`"0123456789012345678901234567890123456789red apple"` contains the full
phrase (and all words) but scores `-1/2 + 42/49 = 5/14`, while the verse
`"apple red"` contains all words without the phrase and scores `3/9 = 1/3 <
5/14` — the phrase verse is assigned the strictly HIGHER (worse) score,
contradicting the claim. -/
theorem phrase_dominance_cex :
    (spaceWords (normalizeText "red apple").data).all
      (fun w => containsSub
        (normalizeText "0123456789012345678901234567890123456789red apple").data w)
      = true ∧
    (spaceWords (normalizeText "red apple").data).all
      (fun w => containsSub (normalizeText "apple red").data w) = true ∧
    containsSub (normalizeText "0123456789012345678901234567890123456789red apple").data
      (normalizeText "red apple").data = true ∧
    containsSub (normalizeText "apple red").data
      (normalizeText "red apple").data = false ∧
    scoreVerse (normalizeText "red apple").data
        (spaceWords (normalizeText "red apple").data)
        (normalizeText "apple red").data <
      scoreVerse (normalizeText "red apple").data
        (spaceWords (normalizeText "red apple").data)
        (normalizeText "0123456789012345678901234567890123456789red apple").data := by
  refine ⟨by decide, by decide, by decide, by decide, ?_⟩
  have hP : scoreVerse (normalizeText "red apple").data
      (spaceWords (normalizeText "red apple").data)
      (normalizeText "0123456789012345678901234567890123456789red apple").data =
      (5 / 14 : ℚ) := by
    unfold scoreVerse posTermOf totalPositionOf
    rw [if_pos (by decide : containsSub
      (normalizeText "0123456789012345678901234567890123456789red apple").data
      (normalizeText "red apple").data = true)]
    rw [show matchedPositions (spaceWords (normalizeText "red apple").data)
      (normalizeText "0123456789012345678901234567890123456789red apple").data =
      [40, 44] from by decide]
    rw [show (normalizeText
      "0123456789012345678901234567890123456789red apple").data.length = 49
      from by decide]
    norm_num
  have hQ : scoreVerse (normalizeText "red apple").data
      (spaceWords (normalizeText "red apple").data)
      (normalizeText "apple red").data = (1 / 3 : ℚ) := by
    unfold scoreVerse posTermOf totalPositionOf
    rw [if_neg (by decide : ¬containsSub (normalizeText "apple red").data
      (normalizeText "red apple").data = true)]
    rw [show matchedPositions (spaceWords (normalizeText "red apple").data)
      (normalizeText "apple red").data = [6, 0] from by decide]
    rw [show (normalizeText "apple red").data.length = 9 from by decide]
    norm_num
  rw [hP, hQ]
  norm_num

/-- C6 amended: among two verses that both contain all query words, a verse
containing the full phrase scores strictly lower (better) than one that does
not, PROVIDED its position term does not exceed the other's; in general the
0.5 phrase bonus can be outweighed by a position-term difference of at least
0.5 (see the counterexample). -/
theorem phrase_dominance (normTerm : List Char) (words : List (List Char))
    (nvP nvQ : List Char)
    (_hP : words.all (fun w => containsSub nvP w) = true)
    (_hQ : words.all (fun w => containsSub nvQ w) = true)
    (hpP : containsSub nvP normTerm = true)
    (hpQ : containsSub nvQ normTerm = false)
    (hpos : posTermOf words nvP ≤ posTermOf words nvQ) :
    scoreVerse normTerm words nvP < scoreVerse normTerm words nvQ := by
  unfold scoreVerse
  rw [if_pos hpP, if_neg (by rw [hpQ]; exact (by decide))]
  have h0 := posTermOf_nonneg words nvQ
  linarith

/-- C6 witness: the dominance at the query `"red apple"`, the phrase verse
`"red apple"` and the scattered verse `"apple red"`. -/
theorem phrase_dominance_witness :
    scoreVerse (normalizeText "red apple").data
        (spaceWords (normalizeText "red apple").data)
        (normalizeText "red apple").data <
      scoreVerse (normalizeText "red apple").data
        (spaceWords (normalizeText "red apple").data)
        (normalizeText "apple red").data := by
  have hpos : posTermOf (spaceWords (normalizeText "red apple").data)
      (normalizeText "red apple").data ≤
      posTermOf (spaceWords (normalizeText "red apple").data)
      (normalizeText "apple red").data := by
    have e1 : posTermOf (spaceWords (normalizeText "red apple").data)
        (normalizeText "red apple").data = (2 / 9 : ℚ) := by
      unfold posTermOf totalPositionOf
      rw [show matchedPositions (spaceWords (normalizeText "red apple").data)
        (normalizeText "red apple").data = [0, 4] from by decide]
      rw [show (normalizeText "red apple").data.length = 9 from by decide]
      norm_num
    have e2 : posTermOf (spaceWords (normalizeText "red apple").data)
        (normalizeText "apple red").data = (1 / 3 : ℚ) := by
      unfold posTermOf totalPositionOf
      rw [show matchedPositions (spaceWords (normalizeText "red apple").data)
        (normalizeText "apple red").data = [6, 0] from by decide]
      rw [show (normalizeText "apple red").data.length = 9 from by decide]
      norm_num
    rw [e1, e2]
    norm_num
  exact phrase_dominance (normalizeText "red apple").data
    (spaceWords (normalizeText "red apple").data)
    (normalizeText "red apple").data (normalizeText "apple red").data
    (by decide) (by decide) (by decide) (by decide) hpos

/-- C4 counterexample: `rootLanguageSearch` sorts by SCORE, not by verse
length — for the query `"dukkha"` over the verses `"xy dukkha"` (length 9,
score `-1/6`) and `"dukkha 890123456"` (length 16, score `-1/2`), the result
lengths come out `[16, 9]`, which is not ascending. -/
theorem literal_ranking_cex :
    (rootLanguageSearch "dukkha" "pli"
        [⟨"pli_sutta", [⟨"mn1",
          [("1", some "xy dukkha"), ("2", some "dukkha 890123456")]⟩]⟩]).map
      (fun e => e.normalized_verse.length) = [16, 9] ∧ ¬((16 : Nat) ≤ 9) := by
  refine ⟨?_, by decide⟩
  have hsA : scoreVerse (normalizeText "dukkha").data
      (spaceWords (normalizeText "dukkha").data)
      ("xy dukkha" : String).data = -(1 / 6 : ℚ) := by
    unfold scoreVerse posTermOf totalPositionOf
    rw [if_pos (by decide : containsSub ("xy dukkha" : String).data
      (normalizeText "dukkha").data = true)]
    rw [show matchedPositions (spaceWords (normalizeText "dukkha").data)
      ("xy dukkha" : String).data = [3] from by decide]
    rw [show ("xy dukkha" : String).data.length = 9 from by decide]
    norm_num
  have hsB : scoreVerse (normalizeText "dukkha").data
      (spaceWords (normalizeText "dukkha").data)
      ("dukkha 890123456" : String).data = -(1 / 2 : ℚ) := by
    unfold scoreVerse posTermOf totalPositionOf
    rw [if_pos (by decide : containsSub ("dukkha 890123456" : String).data
      (normalizeText "dukkha").data = true)]
    rw [show matchedPositions (spaceWords (normalizeText "dukkha").data)
      ("dukkha 890123456" : String).data = [0] from by decide]
    rw [show ("dukkha 890123456" : String).data.length = 16 from by decide]
    norm_num
  simp only [rootLanguageSearch]
  rw [if_neg (by decide), if_neg (by decide)]
  rw [show (collectRootVerses (relevantRootStores "pli"
      [⟨"pli_sutta", [⟨"mn1",
        [("1", some "xy dukkha"), ("2", some "dukkha 890123456")]⟩]⟩])).filter
      (fun e => (spaceWords (normalizeText "dukkha").data).all
        (fun w => containsSub e.normalized_verse.data w)) =
      [⟨"mn1", "1", "xy dukkha", "xy dukkha", "pli_sutta", none⟩,
       ⟨"mn1", "2", "dukkha 890123456", "dukkha 890123456", "pli_sutta", none⟩]
    from by decide]
  rw [List.map_cons, List.map_cons, List.map_nil]
  rw [insertionSort_pair]
  rw [if_neg ?hOrd]
  case hOrd =>
    rw [hsA, hsB]
    simp only [scoreOfRootEntry, Option.getD_some]
    norm_num
  decide

/-- C4 amended: `literalSearchInIndexedDB` (part_002) does rank its matches
ascending by the length of the normalized verse text (its output is the
length-sorted match list, reshaped); `rootLanguageSearch` (part_000) instead
ranks ascending by the positional score (see the counterexample). -/
theorem literal_ranking_amended :
    ∀ (searchTerm : String) (records : List RecordP2),
      literalSearchInIndexedDB searchTerm records =
        (literalSortedP2 searchTerm records).map formatP2 ∧
      List.Sorted (fun a b => a.normalizedVerse.length ≤ b.normalizedVerse.length)
        (literalSortedP2 searchTerm records) := by
  intro t rs
  refine ⟨rfl, ?_⟩
  unfold literalSortedP2
  haveI : IsTotal VerseEntryP2
      (fun a b => a.normalizedVerse.length ≤ b.normalizedVerse.length) :=
    ⟨fun a b => Nat.le_total _ _⟩
  haveI : IsTrans VerseEntryP2
      (fun a b => a.normalizedVerse.length ≤ b.normalizedVerse.length) :=
    ⟨fun _ _ _ hab hbc => Nat.le_trans hab hbc⟩
  exact List.sorted_insertionSort _ _
